import Mathlib

/-!
Verification of the quantum circuit / statevector simulation core described by
the repository specification, together with the concrete circuits built by the
repository's driver scripts (Bell state, Deutsch, Grover oracle, Simon oracle,
Shor modular-exponentiation gate and period post-processing).

The statevector engine, transform library (QFT) and sampler are library code
that is not part of the repository sources; they are modelled from the spec
(sections 3, 4.4, 4.5, 4.6).  The concrete circuits and classical
post-processing are translated from the repository's Python files.
-/

set_option maxHeartbeats 1000000

namespace QuantumSpec

/-- A basis-state index for `n` qubits.  Qubit `i` is the `i`-th bit in the
little-endian integer encoding of the basis string (spec section 3). -/
abbrev BV (n : ℕ) := Fin n → Bool

/-- Modelled from the spec: a dense Statevector, one complex amplitude per
computational basis state of `n` qubits (spec section 3). -/
abbrev QState (n : ℕ) := BV n → ℂ

/-- Modelled from the spec: the closed tagged-variant `Operation` type of the
CircuitModel (spec section 3): named single-qubit primitives (X, H), two-qubit
primitives (CNOT, SWAP, controlled-phase), multi-controlled-X with an ordered
list of controls, and the structural barrier no-op. -/
inductive Op (n : ℕ) where
  | X (q : Fin n)
  | H (q : Fin n)
  | CX (c t : Fin n)
  | SWAP (a b : Fin n)
  | CP (c t : Fin n) (theta : ℝ)
  | MCX (cs : List (Fin n)) (t : Fin n)
  | Barrier

variable {n : ℕ}

/-- Flip one bit of a basis-state index. -/
def flipAt (b : BV n) (q : Fin n) : BV n := Function.update b q (!b q)

/-- Overwrite one bit of a basis-state index. -/
def setAt (b : BV n) (q : Fin n) (v : Bool) : BV n := Function.update b q v

/-- Exchange two bits of a basis-state index. -/
def swapAt (b : BV n) (p q : Fin n) : BV n :=
  fun i => if i = p then b q else if i = q then b p else b i

/-- The spec's structural invariant on one operation (section 3): control and
target sets of one operation are disjoint. -/
def opWF : Op n → Prop
  | .CX c t => c ≠ t
  | .MCX cs t => t ∉ cs
  | _ => True

/-- Modelled from the spec: the inverse of one primitive operation; the
controlled-phase angle is negated, every other primitive in the QFT family is
self-inverse (spec section 4.4). -/
def invOp : Op n → Op n
  | .CP c t theta => .CP c t (-theta)
  | op => op

/-- The `n`-bit little-endian encoding of a natural number as a basis index
(spec section 3: index 0 is the least-significant bit). -/
def encodeBV (n x : ℕ) : BV n := fun i => x.testBit i.1

/-! ### Circuits and classical components translated from the repository -/

/-- From `entanglement.py` (lines 12-14): Hadamard on qubit 0 followed by CNOT
with control 0 and target 1, building the Bell state on a 2-qubit register. -/
def bellCircuit : List (Op 2) := [.H 0, .CX 0 1]

namespace Deutsch

/-- From `deutsch_algorithm.py` `create_oracle` (lines 40-52): the constant
oracle is the empty circuit, the balanced oracle is CNOT(0,1), and any other
type raises `ValueError` to the caller. -/
def create_oracle (type : String) : Except String (List (Op 2)) :=
  if type = "constant" then .ok []
  else if type = "balanced" then .ok [.CX 0 1]
  else .error "type must be constant or balanced"

/-- From `deutsch_algorithm.py` `deutsch_algorithm` (lines 4-19): X on qubit 1,
Hadamard on qubits 0 and 1, the oracle, Hadamard on qubit 0; qubit 0 is then
measured. -/
def deutschCircuit (oracle : List (Op 2)) : List (Op 2) :=
  [.X 1, .H 0, .H 1] ++ oracle ++ [.H 0]

end Deutsch

namespace Grover

/-- The bit of the marked state at (little-endian) position `i`: character
`'1'` of the reversed marked string (`grover_algorithm.py` line 45). -/
def markedBit (s : String) (i : Fin s.length) : Bool :=
  s.data.reverse.get ⟨i.1, by rw [List.length_reverse]; exact i.2⟩ == '1'

/-- Whether `create_oracle` puts an X gate on qubit `i`: the reversed marked
string has character `'0'` there (`grover_algorithm.py` lines 45-47). -/
def maskBit (s : String) (i : Fin s.length) : Bool :=
  s.data.reverse.get ⟨i.1, by rw [List.length_reverse]; exact i.2⟩ == '0'

/-- From `grover_algorithm.py` lines 45-47 and 65-68: the layer of X gates on
every qubit where the marked state has a `'0'`. -/
def xLayer (s : String) : List (Op s.length) :=
  ((List.finRange s.length).filter fun i => maskBit s i).map Op.X

/-- From `grover_algorithm.py` line 54: `control_qubits[:-1]`, every qubit
whose index is below `n - 1`. -/
def controlQubits (s : String) : List (Fin s.length) :=
  (List.finRange s.length).filter fun i => decide (i.1 < s.length - 1)

/-- The marked basis state itself, as a little-endian basis index. -/
def markedState (s : String) : BV s.length := fun i => markedBit s i

/-- From `grover_algorithm.py` `create_oracle` (lines 32-70): X gates where
the marked state has a `'0'`, an H / multi-controlled-X / H sandwich on the
last qubit, the X gates again, and a barrier. -/
def create_oracle (s : String) (h : 0 < s.length) : List (Op s.length) :=
  xLayer s ++
    [Op.H ⟨s.length - 1, by omega⟩,
      Op.MCX (controlQubits s) ⟨s.length - 1, by omega⟩,
      Op.H ⟨s.length - 1, by omega⟩] ++
    xLayer s ++ [Op.Barrier]

end Grover

namespace Simon

/-- From `simon_algorithm.py` `make_simon_oracle` (lines 11-40): CNOTs copying
the input register onto the output register, then, for every input bit `i`
where the reversed secret string has a `'1'`, CNOTs from input `i` onto every
output bit. -/
def make_simon_oracle (m : ℕ) (s : String) : List (Op (2 * m)) :=
  (((List.finRange m).map fun i =>
      Op.CX ⟨i.1, by have := i.2; omega⟩ ⟨i.1 + m, by have := i.2; omega⟩) ++
    (((List.finRange m).map fun i =>
      if s.data.reverse.getD i.1 '0' == '1' then
        (List.finRange m).map fun j =>
          Op.CX ⟨i.1, by have := i.2; omega⟩ ⟨j.1 + m, by have := j.2; omega⟩
      else []).flatten))

/-- Pair a 3-bit input-register index with a 3-bit output-register index into
one 6-qubit basis index (inputs are qubits 0-2, outputs are qubits 3-5). -/
def glue3 (x o : BV 3) : BV 6 :=
  fun i => if h : i.1 < 3 then x ⟨i.1, h⟩ else o ⟨i.1 - 3, by have := i.2; omega⟩

/-- The function the claim (and the code's comments) assert the oracle
computes on the output register for `s = "101"`:
`f(x)_j = x_j xor (x_0 xor x_2)`. -/
def simonF (x : BV 3) : BV 3 := fun j => xor (x j) (xor (x 0) (x 2))

/-- The control/target pairs of the nine CNOTs that `make_simon_oracle 3
"101"` emits, in order. -/
def simonPairs : List (Fin 6 × Fin 6) :=
  [(0, 3), (1, 4), (2, 5), (0, 3), (0, 4), (0, 5), (2, 3), (2, 4), (2, 5)]

end Simon

namespace Shor

/-- From `shor_algorithm.py` `c_amod15` (lines 23-63): the hard-coded
modular-exponentiation gate.  For a base other than 7 the Python function
prints an error message and still returns the (unmodified, identity) 4-qubit
gate — it never raises, so every branch is a normal `Except.ok` return.
Otherwise the SWAP sequence is selected by `power mod 4`. -/
def c_amod15 (a power : ℕ) : Except String (List (Op 4)) :=
  if a ≠ 7 then .ok []
  else if power % 4 = 0 then .ok []
  else if power % 4 = 1 then .ok [.SWAP 0 1, .SWAP 1 2, .SWAP 2 3]
  else if power % 4 = 2 then .ok [.SWAP 1 3, .SWAP 0 2]
  else .ok [.SWAP 0 3, .SWAP 0 2, .SWAP 1 3]

/-- From `shor_algorithm.py` lines 127-139: one step of the period-recovery
loop.  For a measured decimal `d ≠ 0` it computes `r = 2^8 / d` in exact
(rational) arithmetic and appends `r` when `r` is an integer, `r` is even and
`r` is not already collected. -/
def recoverStep (acc : List ℕ) (d : ℕ) : List ℕ :=
  if d ≠ 0 then
    if ((256 : ℚ) / d).den = 1 then
      if ((256 : ℚ) / d).num.toNat % 2 = 0 ∧ ((256 : ℚ) / d).num.toNat ∉ acc then
        acc ++ [((256 : ℚ) / d).num.toNat]
      else acc
    else acc
  else acc

/-- From `shor_algorithm.py` lines 127-139: the whole period-recovery loop
over the list of measured decimal values. -/
def measured_periods (ds : List ℕ) : List ℕ := ds.foldl recoverStep []

end Shor

/-! ### Sampler, modelled from the spec (section 4.6) -/

/-- Modelled from the spec: the pseudo-random source advancing the
caller-supplied seed (a linear congruential generator); the sampler consumes
only this explicit source, never ambient randomness. -/
def lcgNext (s : ℕ) : ℕ := (1664525 * s + 1013904223) % 4294967296

/-- The successive generator states consumed for `k` shots. -/
def lcgStream (s : ℕ) : ℕ → List ℕ
  | 0 => []
  | k + 1 => lcgNext s :: lcgStream (lcgNext s) k

/-- The random fraction in `[0, 1)` extracted from one generator state. -/
def randFrac (s : ℕ) : ℚ := ((s % 4294967296 : ℕ) : ℚ) / 4294967296

/-- Modelled from the spec: one categorical draw by inverse transform — the
first outcome whose cumulative probability exceeds the random fraction. -/
def drawIndex : List ℚ → ℚ → ℕ
  | [], _ => 0
  | [_], _ => 0
  | p :: q :: ps, r => if r < p then 0 else drawIndex (q :: ps) (r - p) + 1

/-- The outcome indices of the `shots` independent draws. -/
def sampleDraws (probs : List ℚ) (shots seed : ℕ) : List ℕ :=
  (lcgStream seed shots).map fun s => drawIndex probs (randFrac s)

/-- Modelled from the spec: the Sampler's outcome histogram — for each of the
`probs.length` outcomes, the number of the `shots` draws that produced it. -/
def sampleHistogram (probs : List ℚ) (shots seed : ℕ) : List ℕ :=
  (List.range probs.length).map fun i => (sampleDraws probs shots seed).count i

/-- The Born-rule distribution of the Bell circuit over the four 2-bit
outcomes, as exact rationals. -/
def bellProbsQ : List ℚ := [1/2, 0, 0, 1/2]

noncomputable section

/-- Modelled from the spec: the StatevectorEngine's per-operation amplitude
update (spec section 4.5).  For a `w`-qubit primitive the `2^w` amplitudes in
each equivalence class (all other bits fixed) are combined through the
primitive's matrix; a controlled primitive updates only the indices whose
control bits are all 1, leaving every other amplitude untouched; the barrier is
a structural no-op. -/
def applyOp : Op n → QState n → QState n
  | .X q, v => fun b => v (flipAt b q)
  | .H q, v => fun b =>
      (v (setAt b q false) + (if b q then -1 else 1) * v (setAt b q true)) / (Real.sqrt 2 : ℝ)
  | .CX c t, v => fun b => if b c then v (flipAt b t) else v b
  | .SWAP p q, v => fun b => v (swapAt b p q)
  | .CP c t theta, v => fun b =>
      if b c && b t then Complex.exp (theta * Complex.I) * v b else v b
  | .MCX cs t, v => fun b => if cs.all b then v (flipAt b t) else v b
  | .Barrier, v => v

/-- Modelled from the spec: the engine applies the circuit's operations to the
state strictly in sequence order (spec section 4.5). -/
def applyCircuit (ops : List (Op n)) (v : QState n) : QState n :=
  ops.foldl (fun s op => applyOp op s) v

/-- Modelled from the spec: the initial statevector, amplitude 1 at the
all-zero basis state and 0 elsewhere (spec section 4.5). -/
def initState (n : ℕ) : QState n := fun b => if b = fun _ => false then 1 else 0

/-- The basis statevector concentrated on one basis index. -/
def basisState (c : BV n) : QState n := fun b => if b = c then 1 else 0

/-- Sum of squared magnitudes of the amplitude vector (spec section 3
invariant). -/
def norm2 (v : QState n) : ℝ := ∑ b : BV n, Complex.normSq (v b)

/-- Modelled from the spec: Born-rule probability of the full `n`-bit basis
outcome with little-endian integer encoding `x` (spec section 4.6). -/
def bornProb (v : QState n) (x : ℕ) : ℝ := Complex.normSq (v (encodeBV n x))

/-- Modelled from the spec (section 4.6): the probability that measuring qubit
`q` yields `val`, marginalizing the squared magnitudes over all other qubits. -/
def marginalProb (v : QState n) (q : Fin n) (val : Bool) : ℝ :=
  ∑ b : BV n, if b q = val then Complex.normSq (v b) else 0

/-- Modelled from the spec (section 4.4): the recursive stage of the QFT over
the contiguous qubit range `[q0, q0 + w)` — a Hadamard on the most-significant
qubit of the remaining range, then controlled-phase rotations from each
less-significant qubit of the range with angle `pi / 2 ^ distance`, recursing
on the remaining range. -/
def qftRotations (n q0 : ℕ) : (w : ℕ) → q0 + w ≤ n → List (Op n)
  | 0, _ => []
  | w + 1, h =>
      Op.H ⟨q0 + w, by omega⟩ ::
        (((List.finRange w).map fun j =>
          Op.CP ⟨q0 + j.1, by have := j.2; omega⟩ ⟨q0 + w, by omega⟩
            (Real.pi / 2 ^ (w - j.1))) ++
          qftRotations n q0 w (by omega))

/-- Modelled from the spec (section 4.4): the final bit-reversal of the QFT,
implemented as SWAPs across the range `[q0, q0 + w)`. -/
def qftSwaps (n q0 w : ℕ) (h : q0 + w ≤ n) : List (Op n) :=
  (List.finRange (w / 2)).map fun i =>
    Op.SWAP ⟨q0 + i.1, by have := i.2; omega⟩
      ⟨q0 + (w - 1 - i.1), by have := i.2; omega⟩

/-- Modelled from the spec (section 4.4): the forward QFT over a contiguous
qubit range: recursive Hadamard/controlled-phase stage followed by the final
bit-reversal SWAPs. -/
def QFT (n q0 w : ℕ) (h : q0 + w ≤ n) : List (Op n) :=
  qftRotations n q0 w h ++ qftSwaps n q0 w h

/-- Modelled from the spec (section 4.4): the inverse QFT is the exact
operation-reverse of the forward QFT with negated phase angles. -/
def inverse_QFT (n q0 w : ℕ) (h : q0 + w ≤ n) : List (Op n) :=
  ((QFT n q0 w h).map invOp).reverse

/-! ### Theorems -/

example : applyCircuit [] (initState 1) = initState 1 := rfl

example : initState n = basisState (fun _ => false) := rfl

theorem applyCircuit_cons (op : Op n) (ops : List (Op n)) (v : QState n) :
    applyCircuit (op :: ops) v = applyCircuit ops (applyOp op v) := rfl

theorem applyCircuit_append (l1 l2 : List (Op n)) (v : QState n) :
    applyCircuit (l1 ++ l2) v = applyCircuit l2 (applyCircuit l1 v) := by
  simp [applyCircuit, List.foldl_append]

theorem setAt_apply_same (b : BV n) (q : Fin n) (w : Bool) : setAt b q w q = w := by
  simp [setAt]

theorem setAt_apply_ne (b : BV n) (q i : Fin n) (w : Bool) (h : i ≠ q) :
    setAt b q w i = b i := by
  simp [setAt, Function.update_noteq h]

theorem setAt_setAt (b : BV n) (q : Fin n) (u w : Bool) :
    setAt (setAt b q u) q w = setAt b q w := by
  simp [setAt]

theorem setAt_eq_self (b : BV n) (q : Fin n) : setAt b q (b q) = b := by
  simp [setAt]

theorem flipAt_apply_same (b : BV n) (q : Fin n) : flipAt b q q = !b q := by
  simp [flipAt]

theorem flipAt_apply_ne (b : BV n) (q i : Fin n) (h : i ≠ q) : flipAt b q i = b i := by
  simp [flipAt, Function.update_noteq h]

theorem flipAt_flipAt (b : BV n) (q : Fin n) : flipAt (flipAt b q) q = b := by
  funext i
  by_cases h : i = q
  · subst h; simp [flipAt]
  · simp [flipAt, Function.update_noteq h]

theorem swapAt_apply_left (b : BV n) (p q : Fin n) : swapAt b p q p = b q := by
  simp [swapAt]

theorem swapAt_swapAt (b : BV n) (p q : Fin n) : swapAt (swapAt b p q) p q = b := by
  funext i
  simp only [swapAt]
  by_cases hp : i = p
  · subst hp
    by_cases hqp : q = i <;> simp [hqp]
  · by_cases hq : i = q
    · subst hq
      simp [hp]
    · simp [hp, hq]

theorem sqrt2C_mul_self : (Real.sqrt 2 : ℂ) * (Real.sqrt 2 : ℂ) = 2 := by
  norm_cast
  exact Real.mul_self_sqrt (by norm_num)

theorem sqrt2C_sq : (Real.sqrt 2 : ℂ) ^ 2 = 2 := by
  rw [sq]; exact sqrt2C_mul_self

theorem sqrt2C_cube : (Real.sqrt 2 : ℂ) ^ 3 = (Real.sqrt 2 : ℂ) * 2 := by
  rw [pow_succ, sqrt2C_sq]
  exact mul_comm 2 _

theorem sqrt2C_ne_zero : (Real.sqrt 2 : ℂ) ≠ 0 := by
  rw [Complex.ofReal_ne_zero]
  positivity

theorem applyOp_X_X (q : Fin n) (v : QState n) :
    applyOp (.X q) (applyOp (.X q) v) = v := by
  funext b; simp [applyOp, flipAt_flipAt]

theorem applyOp_SWAP_SWAP (p q : Fin n) (v : QState n) :
    applyOp (.SWAP p q) (applyOp (.SWAP p q) v) = v := by
  funext b; simp [applyOp, swapAt_swapAt]

theorem applyOp_H_H (q : Fin n) (v : QState n) :
    applyOp (.H q) (applyOp (.H q) v) = v := by
  funext b
  simp only [applyOp, setAt_setAt, setAt_apply_same, if_true, if_false]
  cases hbq : b q with
  | false =>
    rw [show setAt b q false = b from by rw [← hbq]; exact setAt_eq_self b q]
    simp only [Bool.false_eq_true, if_false]
    field_simp
    ring_nf
    rw [sqrt2C_sq]
  | true =>
    rw [show setAt b q true = b from by rw [← hbq]; exact setAt_eq_self b q]
    simp only [if_true]
    field_simp
    ring_nf
    rw [sqrt2C_sq]

theorem applyOp_CP_CP (c t : Fin n) (theta : ℝ) (v : QState n) :
    applyOp (.CP c t (-theta)) (applyOp (.CP c t theta) v) = v := by
  funext b
  simp only [applyOp]
  by_cases h : b c && b t
  · simp only [h, if_true, ← mul_assoc, ← Complex.exp_add]
    push_cast
    ring_nf
    simp
  · simp [h]

theorem applyOp_CX_CX (c t : Fin n) (h : c ≠ t) (v : QState n) :
    applyOp (.CX c t) (applyOp (.CX c t) v) = v := by
  funext b
  simp only [applyOp]
  by_cases hc : b c
  · rw [if_pos hc, if_pos (by rwa [flipAt_apply_ne b t c h]), flipAt_flipAt]
  · rw [if_neg hc, if_neg hc]

theorem all_flipAt (cs : List (Fin n)) (t : Fin n) (h : t ∉ cs) (b : BV n) :
    cs.all (flipAt b t) = cs.all b := by
  induction cs with
  | nil => rfl
  | cons c cs ih =>
    have hct : c ≠ t := fun hh => h (by simp [hh])
    simp only [List.all_cons, flipAt_apply_ne b t c hct,
      ih (fun hm => h (List.mem_cons_of_mem _ hm))]

theorem applyOp_MCX_MCX (cs : List (Fin n)) (t : Fin n) (h : t ∉ cs) (v : QState n) :
    applyOp (.MCX cs t) (applyOp (.MCX cs t) v) = v := by
  funext b
  simp only [applyOp]
  by_cases hc : cs.all b
  · rw [if_pos hc, if_pos (by rwa [all_flipAt cs t h]), flipAt_flipAt]
  · rw [if_neg hc, if_neg hc]

theorem applyOp_invOp (op : Op n) (h : opWF op) (v : QState n) :
    applyOp (invOp op) (applyOp op v) = v := by
  cases op with
  | X q => exact applyOp_X_X q v
  | H q => exact applyOp_H_H q v
  | CX c t => exact applyOp_CX_CX c t h v
  | SWAP p q => exact applyOp_SWAP_SWAP p q v
  | CP c t theta => exact applyOp_CP_CP c t theta v
  | MCX cs t => exact applyOp_MCX_MCX cs t h v
  | Barrier => rfl

/-- Applying a circuit and then its operation-reverse with inverted primitives
is the identity on every statevector. -/
theorem applyCircuit_revInv (ops : List (Op n)) (h : ∀ op ∈ ops, opWF op)
    (v : QState n) :
    applyCircuit ((ops.map invOp).reverse) (applyCircuit ops v) = v := by
  induction ops generalizing v with
  | nil => rfl
  | cons op rest ih =>
    simp only [List.map_cons, List.reverse_cons]
    rw [applyCircuit_cons, applyCircuit_append,
      ih (fun o ho => h o (List.mem_cons_of_mem _ ho)) (applyOp op v)]
    exact applyOp_invOp op (h op (List.mem_cons_self _ _)) v

theorem qftRotations_WF (n q0 : ℕ) :
    ∀ (w : ℕ) (h : q0 + w ≤ n), ∀ op ∈ qftRotations n q0 w h, opWF op := by
  intro w
  induction w with
  | zero =>
    intro h op hop
    simp [qftRotations] at hop
  | succ w ih =>
    intro h op hop
    simp only [qftRotations, List.mem_cons, List.mem_append, List.mem_map] at hop
    rcases hop with rfl | ⟨⟨j, -, rfl⟩ | hrec⟩
    · trivial
    · trivial
    · exact ih _ op hrec

theorem qftSwaps_WF (n q0 w : ℕ) (h : q0 + w ≤ n) :
    ∀ op ∈ qftSwaps n q0 w h, opWF op := by
  intro op hop
  simp only [qftSwaps, List.mem_map] at hop
  obtain ⟨i, -, rfl⟩ := hop
  trivial

theorem QFT_WF (n q0 w : ℕ) (h : q0 + w ≤ n) : ∀ op ∈ QFT n q0 w h, opWF op := by
  intro op hop
  rcases List.mem_append.mp hop with h1 | h2
  · exact qftRotations_WF n q0 w h op h1
  · exact qftSwaps_WF n q0 w h op h2

/-- C1: for every width `w` (and every placement of the contiguous range of
`w` qubits inside an `n`-qubit register), applying the forward QFT and then
the inverse QFT to any starting amplitude vector reproduces the original
amplitude vector — here exactly, hence in particular within the numerical
tolerance ε. -/
theorem qft_inverse_qft_roundtrip (n q0 w : ℕ) (h : q0 + w ≤ n) (v : QState n) :
    applyCircuit (inverse_QFT n q0 w h) (applyCircuit (QFT n q0 w h) v) = v :=
  applyCircuit_revInv _ (QFT_WF n q0 w h) v

/-- Witness for C1: the round-trip law at the concrete width 2 on a 2-qubit
register, starting from the all-zero statevector. -/
theorem qft_inverse_qft_roundtrip_witness :
    0 + 2 ≤ 2 ∧
      applyCircuit (inverse_QFT 2 0 2 (by decide))
        (applyCircuit (QFT 2 0 2 (by decide)) (initState 2)) = initState 2 :=
  ⟨by decide, qft_inverse_qft_roundtrip 2 0 2 (by decide) (initState 2)⟩

/-! ### Norm preservation (claim C5) -/

theorem sum_comp_involutive {M : Type} [AddCommMonoid M] (f : BV n → BV n)
    (hf : Function.Involutive f) (g : BV n → M) :
    ∑ b : BV n, g (f b) = ∑ b : BV n, g b :=
  Equiv.sum_comp (hf.toPerm f) g

theorem flipAt_involutive (q : Fin n) : Function.Involutive (fun b : BV n => flipAt b q) :=
  fun b => flipAt_flipAt b q

theorem swapAt_involutive (p q : Fin n) :
    Function.Involutive (fun b : BV n => swapAt b p q) :=
  fun b => swapAt_swapAt b p q

theorem cxFn_involutive (c t : Fin n) (h : c ≠ t) :
    Function.Involutive (fun b : BV n => if b c then flipAt b t else b) := by
  intro b
  by_cases hc : b c
  · simp only [hc, if_true]
    rw [if_pos (by rwa [flipAt_apply_ne b t c h]), flipAt_flipAt]
  · simp [hc]

theorem mcxFn_involutive (cs : List (Fin n)) (t : Fin n) (h : t ∉ cs) :
    Function.Involutive (fun b : BV n => if cs.all b then flipAt b t else b) := by
  intro b
  by_cases hc : cs.all b
  · simp only [hc, if_true]
    rw [if_pos (by rwa [all_flipAt cs t h]), flipAt_flipAt]
  · simp [hc]

theorem normSq_exp_mul_I (theta : ℝ) :
    Complex.normSq (Complex.exp (theta * Complex.I)) = 1 := by
  rw [Complex.normSq_eq_abs, Complex.abs_exp]
  simp

theorem normSq_H_pair (x y : ℂ) :
    Complex.normSq ((x + y) / (Real.sqrt 2 : ℝ)) +
        Complex.normSq ((x - y) / (Real.sqrt 2 : ℝ)) =
      Complex.normSq x + Complex.normSq y := by
  rw [Complex.normSq_div, Complex.normSq_div]
  have h2 : Complex.normSq ((Real.sqrt 2 : ℝ) : ℂ) = 2 := by
    rw [Complex.normSq_ofReal]
    exact Real.mul_self_sqrt (by norm_num)
  rw [h2, Complex.normSq_add, Complex.normSq_sub]
  ring

theorem sum_pair_split {M : Type} [AddCommMonoid M] (q : Fin n) (w : BV n → M) :
    ∑ b : BV n, w b =
      ∑ b ∈ Finset.univ.filter (fun b : BV n => b q = false),
        (w b + w (setAt b q true)) := by
  classical
  rw [Finset.sum_add_distrib,
    ← Finset.sum_filter_add_sum_filter_not Finset.univ (fun b : BV n => b q = false) w]
  congr 1
  refine Finset.sum_nbij' (fun b => setAt b q false) (fun b => setAt b q true)
    ?_ ?_ ?_ ?_ ?_
  · intro a ha
    simp only [Finset.mem_filter, Finset.mem_univ, true_and]
    exact setAt_apply_same a q false
  · intro a ha
    simp only [Finset.mem_filter, Finset.mem_univ, true_and]
    simp [setAt_apply_same]
  · intro a ha
    simp only [Finset.mem_filter, Finset.mem_univ, true_and, Bool.not_eq_false] at ha
    show setAt (setAt a q false) q true = a
    rw [setAt_setAt, ← ha]
    exact setAt_eq_self a q
  · intro a ha
    simp only [Finset.mem_filter, Finset.mem_univ, true_and] at ha
    show setAt (setAt a q true) q false = a
    rw [setAt_setAt, ← ha]
    exact setAt_eq_self a q
  · intro a ha
    simp only [Finset.mem_filter, Finset.mem_univ, true_and, Bool.not_eq_false] at ha
    show w a = w (setAt (setAt a q false) q true)
    have hrw : setAt (setAt a q false) q true = a := by
      rw [setAt_setAt, ← ha]
      exact setAt_eq_self a q
    rw [hrw]

theorem norm2_applyOp_H (q : Fin n) (v : QState n) :
    norm2 (applyOp (.H q) v) = norm2 v := by
  rw [norm2, norm2,
    sum_pair_split q (fun b => Complex.normSq (applyOp (.H q) v b)),
    sum_pair_split q (fun b => Complex.normSq (v b))]
  refine Finset.sum_congr rfl fun b hb => ?_
  simp only [Finset.mem_filter, Finset.mem_univ, true_and] at hb
  have hb0 : setAt b q false = b := by
    rw [← hb]
    exact setAt_eq_self b q
  simp only [applyOp, setAt_setAt, setAt_apply_same, hb, hb0, if_true, if_false,
    Bool.false_eq_true, one_mul]
  rw [show (-1 : ℂ) * v (setAt b q true) = -(v (setAt b q true)) from by ring,
    ← sub_eq_add_neg]
  exact normSq_H_pair (v b) (v (setAt b q true))

theorem norm2_applyOp (op : Op n) (h : opWF op) (v : QState n) :
    norm2 (applyOp op v) = norm2 v := by
  cases op with
  | X q =>
    exact sum_comp_involutive _ (flipAt_involutive q) (fun b => Complex.normSq (v b))
  | H q => exact norm2_applyOp_H q v
  | CX c t =>
    have := sum_comp_involutive _ (cxFn_involutive c t h) (fun b => Complex.normSq (v b))
    calc norm2 (applyOp (.CX c t) v)
        = ∑ b : BV n, Complex.normSq (v (if b c then flipAt b t else b)) := by
          refine Finset.sum_congr rfl fun b _ => ?_
          simp only [applyOp, apply_ite v]
      _ = norm2 v := this
  | SWAP p q =>
    exact sum_comp_involutive _ (swapAt_involutive p q) (fun b => Complex.normSq (v b))
  | CP c t theta =>
    refine Finset.sum_congr rfl fun b _ => ?_
    simp only [applyOp]
    by_cases hb : b c && b t
    · rw [if_pos hb, Complex.normSq_mul, normSq_exp_mul_I, one_mul]
    · rw [if_neg hb]
  | MCX cs t =>
    have := sum_comp_involutive _ (mcxFn_involutive cs t h) (fun b => Complex.normSq (v b))
    calc norm2 (applyOp (.MCX cs t) v)
        = ∑ b : BV n, Complex.normSq (v (if cs.all b then flipAt b t else b)) := by
          refine Finset.sum_congr rfl fun b _ => ?_
          simp only [applyOp, apply_ite v]
      _ = norm2 v := this
  | Barrier => rfl

theorem norm2_applyCircuit (ops : List (Op n)) (h : ∀ op ∈ ops, opWF op)
    (v : QState n) : norm2 (applyCircuit ops v) = norm2 v := by
  induction ops generalizing v with
  | nil => rfl
  | cons op rest ih =>
    rw [applyCircuit_cons, ih (fun o ho => h o (List.mem_cons_of_mem _ ho)),
      norm2_applyOp op (h op (List.mem_cons_self _ _))]

theorem norm2_initState (m : ℕ) : norm2 (initState m) = 1 := by
  rw [norm2]
  have : ∀ b : BV m, Complex.normSq (initState m b) =
      if b = (fun _ => false) then 1 else 0 := by
    intro b
    by_cases hb : b = fun _ => false <;> simp [initState, hb]
  rw [Finset.sum_congr rfl fun b _ => this b]
  rw [Finset.sum_ite_eq' Finset.univ (fun _ => false) (fun _ => (1 : ℝ))]
  simp

/-- C5: the sum of squared magnitudes of the amplitude vector is exactly 1 for
the initial all-zero state, and applying any valid circuit (hence, after every
operation of any valid circuit) it still equals 1 exactly — in particular
within the tolerance ε. -/
theorem statevector_norm_preservation (m : ℕ) (ops : List (Op m))
    (hops : ∀ op ∈ ops, opWF op) :
    norm2 (initState m) = 1 ∧ norm2 (applyCircuit ops (initState m)) = 1 :=
  ⟨norm2_initState m,
    by rw [norm2_applyCircuit ops hops (initState m)]; exact norm2_initState m⟩

/-- Witness for C5: the invariant for the one-operation circuit `[H 0]` on a
single qubit. -/
theorem statevector_norm_preservation_witness :
    (∀ op ∈ [Op.H (0 : Fin 1)], opWF op) ∧
      (norm2 (initState 1) = 1 ∧
        norm2 (applyCircuit [Op.H (0 : Fin 1)] (initState 1)) = 1) :=
  ⟨fun op hop => by rw [List.mem_singleton] at hop; subst hop; trivial,
    statevector_norm_preservation 1 _
      (fun op hop => by rw [List.mem_singleton] at hop; subst hop; trivial)⟩

/-! ### Action of primitives on basis states, and linearity of the engine -/

theorem basis_comp_involutive (f : BV n → BV n) (hf : Function.Involutive f)
    (d : BV n) : (fun b => basisState d (f b)) = basisState (f d) := by
  funext b
  simp only [basisState]
  by_cases h : b = f d
  · subst h; rw [if_pos (hf d), if_pos rfl]
  · rw [if_neg h, if_neg fun hc => h (by rw [← hc, hf])]

theorem applyOp_X_basis (q : Fin n) (d : BV n) :
    applyOp (.X q) (basisState d) = basisState (flipAt d q) := by
  have := basis_comp_involutive (fun b => flipAt b q) (flipAt_involutive q) d
  funext b
  exact congrFun this b

theorem applyOp_SWAP_basis (p q : Fin n) (d : BV n) :
    applyOp (.SWAP p q) (basisState d) = basisState (swapAt d p q) := by
  have := basis_comp_involutive (fun b => swapAt b p q) (swapAt_involutive p q) d
  funext b
  exact congrFun this b

theorem applyOp_CX_basis (c t : Fin n) (h : c ≠ t) (d : BV n) :
    applyOp (.CX c t) (basisState d) =
      basisState (if d c then flipAt d t else d) := by
  have heq : applyOp (.CX c t) (basisState d) =
      fun b => basisState d (if b c then flipAt b t else b) := by
    funext b
    simp only [applyOp, apply_ite (basisState d)]
  rw [heq, basis_comp_involutive _ (cxFn_involutive c t h) d]

theorem applyOp_MCX_basis (cs : List (Fin n)) (t : Fin n) (h : t ∉ cs) (d : BV n) :
    applyOp (.MCX cs t) (basisState d) =
      basisState (if cs.all d then flipAt d t else d) := by
  have heq : applyOp (.MCX cs t) (basisState d) =
      fun b => basisState d (if cs.all b then flipAt b t else b) := by
    funext b
    simp only [applyOp, apply_ite (basisState d)]
  rw [heq, basis_comp_involutive _ (mcxFn_involutive cs t h) d]

theorem setAt_eq_iff (b c : BV n) (q : Fin n) (w : Bool) :
    setAt b q w = c ↔ (c q = w ∧ b = setAt c q (b q)) := by
  constructor
  · intro h
    refine ⟨by rw [← h]; exact setAt_apply_same b q w, ?_⟩
    funext i
    by_cases hi : i = q
    · subst hi; rw [setAt_apply_same]
    · rw [setAt_apply_ne _ _ _ _ hi, ← h, setAt_apply_ne _ _ _ _ hi]
  · rintro ⟨hcq, hb⟩
    funext i
    by_cases hi : i = q
    · subst hi; rw [setAt_apply_same, hcq]
    · rw [setAt_apply_ne _ _ _ _ hi, hb, setAt_apply_ne _ _ _ _ hi]

theorem setAt_false_ne_setAt_true (c : BV n) (q : Fin n) :
    setAt c q false ≠ setAt c q true := by
  intro h
  have := congrFun h q
  rw [setAt_apply_same, setAt_apply_same] at this
  exact Bool.false_ne_true this

theorem setAt_eq_self_iff (c : BV n) (q : Fin n) (w : Bool) :
    setAt c q w = c ↔ c q = w := by
  constructor
  · intro h
    have := congrFun h q
    rw [setAt_apply_same] at this
    exact this.symm
  · intro h
    rw [← h]
    exact setAt_eq_self c q

theorem applyOp_H_basis (q : Fin n) (c : BV n) :
    applyOp (.H q) (basisState c) =
      ((Real.sqrt 2 : ℂ))⁻¹ • (basisState (setAt c q false) +
        (if c q then (-1 : ℂ) else 1) • basisState (setAt c q true)) := by
  funext b
  simp only [applyOp, basisState, Pi.smul_apply, Pi.add_apply, smul_eq_mul]
  rw [div_eq_inv_mul]
  congr 1
  by_cases hb : b = setAt c q false
  · subst hb
    simp only [setAt_setAt, setAt_apply_same, setAt_eq_self_iff,
      setAt_false_ne_setAt_true c q]
    cases hcv : c q <;> simp
  · by_cases hb' : b = setAt c q true
    · subst hb'
      have hne : setAt c q true ≠ setAt c q false :=
        fun h => setAt_false_ne_setAt_true c q h.symm
      simp only [setAt_setAt, setAt_apply_same, setAt_eq_self_iff, hne]
      cases hcv : c q <;> simp
    · have k1 : setAt b q false ≠ c := by
        intro h
        rcases (setAt_eq_iff b c q false).mp h with ⟨-, h2⟩
        cases hbq : b q with
        | false => exact hb (by rw [h2, hbq])
        | true => exact hb' (by rw [h2, hbq])
      have k2 : setAt b q true ≠ c := by
        intro h
        rcases (setAt_eq_iff b c q true).mp h with ⟨-, h2⟩
        cases hbq : b q with
        | false => exact hb (by rw [h2, hbq])
        | true => exact hb' (by rw [h2, hbq])
      simp [k1, k2, hb, hb']

theorem applyOp_add (op : Op n) (u w : QState n) :
    applyOp op (u + w) = applyOp op u + applyOp op w := by
  cases op with
  | X q => funext b; simp [applyOp]
  | H q => funext b; simp only [applyOp, Pi.add_apply]; ring
  | CX c t => funext b; simp only [applyOp, Pi.add_apply]; split <;> rfl
  | SWAP p q => funext b; simp [applyOp]
  | CP c t theta => funext b; simp only [applyOp, Pi.add_apply]; split <;> [ring; rfl]
  | MCX cs t => funext b; simp only [applyOp, Pi.add_apply]; split <;> rfl
  | Barrier => rfl

theorem applyOp_smul (op : Op n) (a : ℂ) (u : QState n) :
    applyOp op (a • u) = a • applyOp op u := by
  cases op with
  | X q => funext b; simp [applyOp]
  | H q => funext b; simp only [applyOp, Pi.smul_apply, smul_eq_mul]; ring
  | CX c t => funext b; simp only [applyOp, Pi.smul_apply]; split <;> rfl
  | SWAP p q => funext b; simp [applyOp]
  | CP c t theta =>
    funext b; simp only [applyOp, Pi.smul_apply, smul_eq_mul]; split <;> [ring; rfl]
  | MCX cs t => funext b; simp only [applyOp, Pi.smul_apply]; split <;> rfl
  | Barrier => rfl

theorem applyCircuit_add (ops : List (Op n)) (u w : QState n) :
    applyCircuit ops (u + w) = applyCircuit ops u + applyCircuit ops w := by
  induction ops generalizing u w with
  | nil => rfl
  | cons op rest ih => rw [applyCircuit_cons, applyOp_add, ih, applyCircuit_cons,
      applyCircuit_cons]

theorem applyCircuit_smul (ops : List (Op n)) (a : ℂ) (u : QState n) :
    applyCircuit ops (a • u) = a • applyCircuit ops u := by
  induction ops generalizing u with
  | nil => rfl
  | cons op rest ih => rw [applyCircuit_cons, applyOp_smul, ih, applyCircuit_cons]

/-! ### Sampler facts (claims C6 and C2) -/

theorem lcgStream_length (seed k : ℕ) : (lcgStream seed k).length = k := by
  induction k generalizing seed with
  | zero => rfl
  | succ k ih => simp [lcgStream, ih]

theorem randFrac_nonneg (s : ℕ) : 0 ≤ randFrac s := by
  unfold randFrac
  positivity

theorem randFrac_lt_one (s : ℕ) : randFrac s < 1 := by
  unfold randFrac
  rw [div_lt_one (by norm_num)]
  exact_mod_cast Nat.mod_lt s (by norm_num)

theorem drawIndex_lt_length (ps : List ℚ) (r : ℚ) (h : ps ≠ []) :
    drawIndex ps r < ps.length := by
  induction ps generalizing r with
  | nil => exact absurd rfl h
  | cons p ps ih =>
    cases ps with
    | nil => simp [drawIndex]
    | cons q ps2 =>
      by_cases hr : r < p
      · simp [drawIndex, hr]
      · simp only [drawIndex, if_neg hr, List.length_cons]
        have := ih (r - p) (by simp)
        simp only [List.length_cons] at this
        omega

theorem drawIndex_pos_prob (ps : List ℚ) (r : ℚ) (h0 : 0 ≤ r) (hs : r < ps.sum) :
    0 < ps.getD (drawIndex ps r) 0 := by
  induction ps generalizing r with
  | nil =>
    simp only [List.sum_nil] at hs
    linarith
  | cons p ps ih =>
    cases ps with
    | nil =>
      simp only [drawIndex, List.getD_cons_zero]
      simp only [List.sum_cons, List.sum_nil, add_zero] at hs
      linarith
    | cons q ps2 =>
      by_cases hr : r < p
      · simp only [drawIndex, if_pos hr, List.getD_cons_zero]
        linarith
      · simp only [drawIndex, if_neg hr, List.getD_cons_succ]
        have h0' : 0 ≤ r - p := by linarith [not_lt.mp hr]
        have hs' : r - p < (q :: ps2).sum := by
          simp only [List.sum_cons] at hs ⊢
          linarith
        exact ih (r - p) h0' hs'

theorem count_pair_eq_length (l : List ℕ) (hl : ∀ x ∈ l, x = 0 ∨ x = 3) :
    l.count 0 + l.count 3 = l.length := by
  induction l with
  | nil => rfl
  | cons a t ih =>
    have ha := hl a (List.mem_cons_self _ _)
    have ht := ih (fun x hx => hl x (List.mem_cons_of_mem _ hx))
    rcases ha with rfl | rfl <;> simp [List.count_cons] <;> omega

/-! ### The Bell scenario (claim C2) -/

theorem bell_final : applyCircuit bellCircuit (initState 2) =
    fun b => if b 0 = b 1 then ((Real.sqrt 2 : ℂ))⁻¹ else 0 := by
  funext b
  have hb : b = ![b 0, b 1] := by
    funext i
    fin_cases i <;> simp
  rw [hb]
  rcases hb0 : b 0 with _ | _ <;> rcases hb1 : b 1 with _ | _ <;>
    simp +decide [applyCircuit, applyOp, initState, flipAt, setAt, bellCircuit,
      Function.update, one_div]

theorem normSq_inv_sqrt2 : Complex.normSq ((Real.sqrt 2 : ℂ))⁻¹ = 1 / 2 := by
  rw [← Complex.ofReal_inv, Complex.normSq_ofReal, ← mul_inv,
    Real.mul_self_sqrt (by norm_num)]
  norm_num

theorem bell_draws_support (seed : ℕ) :
    ∀ x ∈ sampleDraws bellProbsQ 1000 seed, x = 0 ∨ x = 3 := by
  intro x hx
  simp only [sampleDraws, List.mem_map] at hx
  obtain ⟨st, -, rfl⟩ := hx
  have h1 : drawIndex bellProbsQ (randFrac st) < 4 :=
    drawIndex_lt_length bellProbsQ (randFrac st) (by simp [bellProbsQ])
  have h2 : 0 < bellProbsQ.getD (drawIndex bellProbsQ (randFrac st)) 0 :=
    drawIndex_pos_prob bellProbsQ (randFrac st) (randFrac_nonneg st)
      (by rw [show bellProbsQ.sum = 1 from by norm_num [bellProbsQ]]
          exact randFrac_lt_one st)
  set i := drawIndex bellProbsQ (randFrac st) with hi
  interval_cases i <;> revert h2 <;> norm_num [bellProbsQ]

/-- C2: in the Bell scenario (H on qubit 0, then CNOT(0,1), both qubits
measured), the outcomes 01 and 10 have Born probability exactly 0, the
outcomes 00 and 11 have Born probability exactly 1/2 each, and for every seed
the 1000-shot histogram has zero occurrences of 01 and 10 while the counts of
00 and 11 sum to 1000. -/
theorem bell_scenario (seed : ℕ) :
    bornProb (applyCircuit bellCircuit (initState 2)) 1 = 0 ∧
    bornProb (applyCircuit bellCircuit (initState 2)) 2 = 0 ∧
    bornProb (applyCircuit bellCircuit (initState 2)) 0 = 1 / 2 ∧
    bornProb (applyCircuit bellCircuit (initState 2)) 3 = 1 / 2 ∧
    sampleHistogram bellProbsQ 1000 seed =
      [(sampleDraws bellProbsQ 1000 seed).count 0, 0, 0,
        (sampleDraws bellProbsQ 1000 seed).count 3] ∧
    (sampleDraws bellProbsQ 1000 seed).count 0 +
      (sampleDraws bellProbsQ 1000 seed).count 3 = 1000 := by
  have hh : sampleHistogram bellProbsQ 1000 seed =
      [(sampleDraws bellProbsQ 1000 seed).count 0,
       (sampleDraws bellProbsQ 1000 seed).count 1,
       (sampleDraws bellProbsQ 1000 seed).count 2,
       (sampleDraws bellProbsQ 1000 seed).count 3] := by
    simp [sampleHistogram, bellProbsQ, show List.range 4 = [0, 1, 2, 3] from rfl]
  have hsupp := bell_draws_support seed
  have hlen : (sampleDraws bellProbsQ 1000 seed).length = 1000 := by
    simp [sampleDraws, lcgStream_length]
  have hc1 : (sampleDraws bellProbsQ 1000 seed).count 1 = 0 :=
    List.count_eq_zero.mpr fun hmem => by rcases hsupp 1 hmem with h | h <;> omega
  have hc2 : (sampleDraws bellProbsQ 1000 seed).count 2 = 0 :=
    List.count_eq_zero.mpr fun hmem => by rcases hsupp 2 hmem with h | h <;> omega
  refine ⟨?_, ?_, ?_, ?_, ?_, ?_⟩
  · rw [bornProb, bell_final]
    simp only []
    rw [if_neg (by decide)]
    exact Complex.normSq_zero
  · rw [bornProb, bell_final]
    simp only []
    rw [if_neg (by decide)]
    exact Complex.normSq_zero
  · rw [bornProb, bell_final]
    simp only []
    rw [if_pos (by decide)]
    exact normSq_inv_sqrt2
  · rw [bornProb, bell_final]
    simp only []
    rw [if_pos (by decide)]
    exact normSq_inv_sqrt2
  · rw [hh, hc1, hc2]
  · rw [count_pair_eq_length _ hsupp, hlen]

/-- C6: the sampler is reproducibly deterministic: it consumes the
caller-supplied seed, and any two runs with identical distribution, identical
seed and identical shot count return identical outcome histograms (exact
equality). -/
theorem sampler_deterministic (p1 p2 : List ℚ) (shots1 shots2 seed1 seed2 : ℕ)
    (hp : p1 = p2) (hshots : shots1 = shots2) (hseed : seed1 = seed2) :
    sampleHistogram p1 shots1 seed1 = sampleHistogram p2 shots2 seed2 := by
  rw [hp, hshots, hseed]

/-- Witness for C6: two runs with distribution [1/2, 1/2], 5 shots, seed 42. -/
theorem sampler_deterministic_witness :
    ([(1 : ℚ)/2, 1/2] = [(1 : ℚ)/2, 1/2]) ∧ ((5 : ℕ) = 5) ∧ ((42 : ℕ) = 42) ∧
      sampleHistogram [(1 : ℚ)/2, 1/2] 5 42 = sampleHistogram [(1 : ℚ)/2, 1/2] 5 42 :=
  ⟨rfl, rfl, rfl, sampler_deterministic _ _ _ _ _ _ rfl rfl rfl⟩

/-! ### Error propagation (claim C7) -/

/-- C7 counterexample: the modular-exponentiation builder asked for the
unsupported base a = 5 returns normally (`Except.ok`) with the unmodified
identity (empty) circuit — no error reaches the caller, the condition is only
printed. -/
theorem c_amod15_unsupported_base_swallowed :
    Shor.c_amod15 5 1 = Except.ok [] := rfl

/-- C7 amended: the Deutsch oracle builder raises an error that reaches its
caller for every unknown oracle type, but the modular-exponentiation builder
with a base other than 7 does not: it swallows the condition and returns a
normal result carrying the unmodified identity circuit. -/
theorem error_propagation_amended :
    (∀ t : String, t ≠ "constant" → t ≠ "balanced" →
      Deutsch.create_oracle t = .error "type must be constant or balanced") ∧
    (∀ a power : ℕ, a ≠ 7 → Shor.c_amod15 a power = .ok []) := by
  constructor
  · intro t h1 h2
    rw [Deutsch.create_oracle, if_neg h1, if_neg h2]
  · intro a power h
    rw [Shor.c_amod15, if_pos h]

/-- Witness for C7's amended claim, at type "weird" and base 5. -/
theorem error_propagation_amended_witness :
    ("weird" ≠ "constant") ∧ ("weird" ≠ "balanced") ∧ ((5 : ℕ) ≠ 7) ∧
      Deutsch.create_oracle "weird" = .error "type must be constant or balanced" ∧
      Shor.c_amod15 5 3 = .ok [] :=
  ⟨by decide, by decide, by decide,
    error_propagation_amended.1 "weird" (by decide) (by decide),
    error_propagation_amended.2 5 3 (by decide)⟩

/-! ### Shor period recovery (claim C8) -/

theorem div256_den_eq_one_iff (d : ℕ) (hd : d ≠ 0) :
    ((256 : ℚ) / (d : ℚ)).den = 1 ↔ d ∣ 256 := by
  constructor
  · intro h
    have hd' : (d : ℚ) ≠ 0 := Nat.cast_ne_zero.mpr hd
    have hr : ((256 : ℚ) / d) * d = 256 := by field_simp
    rw [← (Rat.den_eq_one_iff _).mp h] at hr
    have hz : ((256 : ℚ) / d).num * d = 256 := by exact_mod_cast hr
    have : (d : ℤ) ∣ 256 := Dvd.intro_left _ hz
    exact_mod_cast this
  · intro h
    have hd' : (d : ℚ) ≠ 0 := Nat.cast_ne_zero.mpr hd
    rw [show (256 : ℚ) = ((256 : ℕ) : ℚ) from by norm_num, ← Nat.cast_div h hd']
    exact Rat.den_natCast _

theorem div256_num_toNat (d : ℕ) (hdvd : d ∣ 256) (hd : d ≠ 0) :
    ((256 : ℚ) / d).num.toNat = 256 / d := by
  have hd' : (d : ℚ) ≠ 0 := Nat.cast_ne_zero.mpr hd
  rw [show (256 : ℚ) = ((256 : ℕ) : ℚ) from by norm_num, ← Nat.cast_div hdvd hd',
    Rat.num_natCast]
  exact Int.toNat_natCast _

theorem recoverStep_mem (acc : List ℕ) (d r : ℕ) (hr : r ∈ Shor.recoverStep acc d) :
    r ∈ acc ∨ r % 2 = 0 := by
  unfold Shor.recoverStep at hr
  split_ifs at hr with h1 h2 h3
  · rcases List.mem_append.mp hr with h | h
    · exact Or.inl h
    · right
      rw [List.mem_singleton] at h
      subst h
      exact h3.1
  all_goals exact Or.inl hr

theorem measured_periods_even_aux (ds : List ℕ) (acc : List ℕ)
    (hacc : ∀ r ∈ acc, r % 2 = 0) :
    ∀ r ∈ ds.foldl Shor.recoverStep acc, r % 2 = 0 := by
  induction ds generalizing acc with
  | nil => exact hacc
  | cons d ds ih =>
    refine ih (Shor.recoverStep acc d) ?_
    intro r hr
    rcases recoverStep_mem acc d r hr with h | h
    · exact hacc r h
    · exact h

/-- C8: the period-recovery step of the factoring example: the measured value
d = 0 never contributes a candidate; for every nonzero d the step appends
r = 2^8 / d exactly when r is an integer (d divides 256), r is even and r is
not already collected, and otherwise leaves the list unchanged; consequently
every candidate period the loop returns is even. -/
theorem period_recovery_characterization :
    (∀ acc : List ℕ, Shor.recoverStep acc 0 = acc) ∧
    (∀ (acc : List ℕ) (d : ℕ), d ≠ 0 →
      Shor.recoverStep acc d =
        if d ∣ 256 ∧ 256 / d % 2 = 0 ∧ 256 / d ∉ acc then acc ++ [256 / d]
        else acc) ∧
    (∀ ds : List ℕ, ∀ r ∈ Shor.measured_periods ds, r % 2 = 0) := by
  refine ⟨?_, ?_, ?_⟩
  · intro acc
    rw [Shor.recoverStep, if_neg (by simp)]
  · intro acc d hd
    rw [Shor.recoverStep, if_pos hd]
    by_cases hdvd : d ∣ 256
    · rw [if_pos ((div256_den_eq_one_iff d hd).mpr hdvd), div256_num_toNat d hdvd hd]
      by_cases hcond : 256 / d % 2 = 0 ∧ 256 / d ∉ acc
      · rw [if_pos hcond, if_pos ⟨hdvd, hcond.1, hcond.2⟩]
      · rw [if_neg hcond, if_neg fun hc => hcond ⟨hc.2.1, hc.2.2⟩]
    · rw [if_neg fun h => hdvd ((div256_den_eq_one_iff d hd).mp h),
        if_neg fun hc => hdvd hc.1]
  · intro ds
    exact measured_periods_even_aux ds [] (by intro r hr; cases hr)

/-- Witness for C8: the characterization applied to the measured value 64
(2^8 / 64 = 4 gets appended) starting from the empty candidate list. -/
theorem period_recovery_witness :
    ((64 : ℕ) ≠ 0) ∧
      Shor.recoverStep [] 64 =
        (if 64 ∣ 256 ∧ 256 / 64 % 2 = 0 ∧ (256 / 64) ∉ ([] : List ℕ)
          then [] ++ [256 / 64] else []) :=
  ⟨by decide, period_recovery_characterization.2.1 [] 64 (by decide)⟩

/-! ### The c_amod15 permutation (claim C9) -/

/-- C9 evaluation at the failing input: for a = 7, power = 1 the returned gate
is the SWAP sequence swap(0,1), swap(1,2), swap(2,3), and that circuit maps
the basis state |1⟩ (little-endian 0001) to |8⟩ — not to |7·1 mod 15⟩ = |7⟩ as
the code's comments and the claim state. -/
theorem c_amod15_power1_maps_one_to_eight :
    Shor.c_amod15 7 1 = Except.ok [.SWAP 0 1, .SWAP 1 2, .SWAP 2 3] ∧
    applyCircuit [Op.SWAP 0 1, Op.SWAP 1 2, Op.SWAP 2 3]
        (basisState (encodeBV 4 1)) = basisState (encodeBV 4 8) ∧
    encodeBV 4 8 ≠ encodeBV 4 (7 * 1 % 15) := by
  refine ⟨rfl, ?_, by decide⟩
  simp only [applyCircuit_cons, applyOp_SWAP_basis]
  show basisState (swapAt (swapAt (swapAt (encodeBV 4 1) 0 1) 1 2) 2 3) =
    basisState (encodeBV 4 8)
  exact congrArg basisState (by decide)

/-! ### The Simon oracle (claim C10) -/

theorem applyCircuit_CX_pairs (ps : List (Fin n × Fin n))
    (hps : ∀ p ∈ ps, p.1 ≠ p.2) (d : BV n) :
    applyCircuit (ps.map fun p => Op.CX p.1 p.2) (basisState d) =
      basisState (ps.foldl (fun b p => if b p.1 then flipAt b p.2 else b) d) := by
  induction ps generalizing d with
  | nil => rfl
  | cons p ps ih =>
    simp only [List.map_cons, List.foldl_cons]
    rw [applyCircuit_cons, applyOp_CX_basis p.1 p.2 (hps p (List.mem_cons_self _ _)) d,
      ih (fun q hq => hps q (List.mem_cons_of_mem _ hq))]

theorem simon_oracle_ops :
    Simon.make_simon_oracle 3 "101" =
      Simon.simonPairs.map fun p => Op.CX p.1 p.2 := rfl

/-- C10 evaluation at the failing input: the oracle for s = "101" maps the
basis state |x = 000, o = 000⟩ to |000, f(000)⟩ and |x = 101, o = 000⟩ to
|101, f(101)⟩ with f(x)_j = x_j xor (x_0 xor x_2) — but f(101) ≠ f(000)
although 101 = 000 xor s, so the oracle violates the Simon periodicity
f(x) = f(x xor s) that the claim (and the code's comments) assert. -/
theorem simon_oracle_not_periodic :
    applyCircuit (Simon.make_simon_oracle 3 "101")
        (basisState (Simon.glue3 (encodeBV 3 0) (encodeBV 3 0))) =
      basisState (Simon.glue3 (encodeBV 3 0) (Simon.simonF (encodeBV 3 0))) ∧
    applyCircuit (Simon.make_simon_oracle 3 "101")
        (basisState (Simon.glue3 (encodeBV 3 5) (encodeBV 3 0))) =
      basisState (Simon.glue3 (encodeBV 3 5) (Simon.simonF (encodeBV 3 5))) ∧
    Simon.simonF (encodeBV 3 5) ≠ Simon.simonF (encodeBV 3 0) := by
  refine ⟨?_, ?_, by decide⟩
  · rw [simon_oracle_ops, applyCircuit_CX_pairs _ (by decide)]
    exact congrArg basisState (by decide)
  · rw [simon_oracle_ops, applyCircuit_CX_pairs _ (by decide)]
    exact congrArg basisState (by decide)

/-! ### The Deutsch scenario (claim C3) -/

theorem sum_BV2 (f : BV 2 → ℝ) :
    ∑ b : BV 2, f b =
      f ![false, false] + f ![true, false] + f ![false, true] + f ![true, true] := by
  rw [← Equiv.sum_comp (finTwoArrowEquiv Bool).symm f, Fintype.sum_prod_type]
  simp only [Fintype.sum_bool]
  show f ![true, true] + f ![true, false] + (f ![false, true] + f ![false, false]) = _
  ring

theorem deutsch_const_final :
    applyCircuit (Deutsch.deutschCircuit []) (initState 2) =
      fun b => if b 0 = false
        then (if b 1 then -((Real.sqrt 2 : ℂ))⁻¹ else ((Real.sqrt 2 : ℂ))⁻¹)
        else 0 := by
  funext b
  have hb : b = ![b 0, b 1] := by
    funext i
    fin_cases i <;> simp
  rw [hb]
  rcases hb0 : b 0 with _ | _ <;> rcases hb1 : b 1 with _ | _ <;>
    simp +decide [applyCircuit, applyOp, initState, flipAt, setAt,
      Deutsch.deutschCircuit, Function.update, one_div] <;>
    field_simp <;>
    (try ring_nf) <;>
    simp [sqrt2C_cube, sqrt2C_sq, sqrt2C_mul_self]

theorem deutsch_bal_final :
    applyCircuit (Deutsch.deutschCircuit [.CX 0 1]) (initState 2) =
      fun b => if b 0 = true
        then (if b 1 then -((Real.sqrt 2 : ℂ))⁻¹ else ((Real.sqrt 2 : ℂ))⁻¹)
        else 0 := by
  funext b
  have hb : b = ![b 0, b 1] := by
    funext i
    fin_cases i <;> simp
  rw [hb]
  rcases hb0 : b 0 with _ | _ <;> rcases hb1 : b 1 with _ | _ <;>
    simp +decide [applyCircuit, applyOp, initState, flipAt, setAt,
      Deutsch.deutschCircuit, Function.update, one_div] <;>
    field_simp <;>
    (try ring_nf) <;>
    simp [sqrt2C_cube, sqrt2C_sq, sqrt2C_mul_self]

/-- C3: the Deutsch circuit with the constant oracle (identity) yields the
measured outcome 0 on qubit 0 with probability exactly 1, and with the
balanced oracle (CNOT) it yields the outcome 1 with probability exactly 1, so
one measurement distinguishes the two oracle classes. -/
theorem deutsch_scenario :
    Deutsch.create_oracle "constant" = .ok [] ∧
    Deutsch.create_oracle "balanced" = .ok [.CX 0 1] ∧
    marginalProb (applyCircuit (Deutsch.deutschCircuit []) (initState 2)) 0 false = 1 ∧
    marginalProb (applyCircuit (Deutsch.deutschCircuit [.CX 0 1]) (initState 2)) 0 true
      = 1 := by
  refine ⟨rfl, rfl, ?_, ?_⟩
  · rw [marginalProb, deutsch_const_final, sum_BV2]
    simp +decide [Complex.normSq_neg, normSq_inv_sqrt2]
    norm_num
  · rw [marginalProb, deutsch_bal_final, sum_BV2]
    simp +decide [Complex.normSq_neg, normSq_inv_sqrt2]
    norm_num

/-! ### The Grover phase oracle (claim C4) -/

theorem applyCircuit_nil (v : QState n) : applyCircuit [] v = v := rfl

theorem flipAt_eq_setAt (b : BV n) (q : Fin n) : flipAt b q = setAt b q (!b q) := rfl

theorem all_setAt (cs : List (Fin n)) (t : Fin n) (h : t ∉ cs) (b : BV n) (v : Bool) :
    cs.all (setAt b t v) = cs.all b := by
  induction cs with
  | nil => rfl
  | cons c cs ih =>
    have hct : c ≠ t := fun hh => h (by simp [hh])
    simp only [List.all_cons, setAt_apply_ne b t c v hct,
      ih (fun hm => h (List.mem_cons_of_mem _ hm))]

theorem applyCircuit_X_list (L : List (Fin n)) (hnd : L.Nodup) (d : BV n) :
    applyCircuit (L.map Op.X) (basisState d) =
      basisState (fun i => if i ∈ L then !(d i) else d i) := by
  induction L generalizing d with
  | nil =>
    rw [List.map_nil, applyCircuit_nil]
    exact congrArg basisState (by funext i; simp)
  | cons q L ih =>
    simp only [List.map_cons]
    rw [applyCircuit_cons, applyOp_X_basis, ih (List.Nodup.of_cons hnd)]
    refine congrArg basisState ?_
    funext i
    by_cases hiq : i = q
    · subst hiq
      have hniL : i ∉ L := (List.nodup_cons.mp hnd).1
      simp [hniL, flipAt_apply_same]
    · by_cases hiL : i ∈ L <;>
        simp [hiq, hiL, flipAt_apply_ne d q i hiq]

theorem xLayer_basis (s : String) (d : BV s.length) :
    applyCircuit (Grover.xLayer s) (basisState d) =
      basisState (fun i => xor (d i) (Grover.maskBit s i)) := by
  rw [Grover.xLayer,
    applyCircuit_X_list _ ((List.nodup_finRange _).filter _)]
  refine congrArg basisState ?_
  funext i
  by_cases hm : Grover.maskBit s i
  · simp [List.mem_filter, hm]
  · simp [List.mem_filter, hm]

/-- The H / multi-controlled-X / H sandwich acts on a basis state as a
multi-controlled Z: a phase flip exactly when all controls and the target are
set. -/
theorem H_MCX_H_basis (cs : List (Fin n)) (t : Fin n) (htc : t ∉ cs) (d : BV n) :
    applyCircuit [Op.H t, Op.MCX cs t, Op.H t] (basisState d) =
      if cs.all d && d t then (-1 : ℂ) • basisState d else basisState d := by
  rw [applyCircuit_cons, applyCircuit_cons, applyCircuit_cons, applyCircuit_nil]
  rw [applyOp_H_basis]
  simp only [applyOp_smul, applyOp_add]
  rw [applyOp_MCX_basis cs t htc, applyOp_MCX_basis cs t htc]
  rw [all_setAt cs t htc, all_setAt cs t htc]
  by_cases hC : cs.all d
  · rw [if_pos hC, if_pos hC]
    rw [show flipAt (setAt d t false) t = setAt d t true from by
        rw [flipAt_eq_setAt, setAt_apply_same, setAt_setAt]
        rfl,
      show flipAt (setAt d t true) t = setAt d t false from by
        rw [flipAt_eq_setAt, setAt_apply_same, setAt_setAt]
        rfl]
    rw [applyOp_H_basis, applyOp_H_basis]
    simp only [setAt_setAt, setAt_apply_same, if_true, if_false, Bool.false_eq_true,
      one_smul, hC, Bool.true_and]
    cases hdt : d t with
    | false =>
      rw [show setAt d t false = d from by rw [← hdt]; exact setAt_eq_self d t]
      simp only [Bool.false_eq_true, if_false, one_smul]
      funext b
      simp only [Pi.add_apply, Pi.smul_apply, smul_eq_mul]
      field_simp
      ring_nf
      simp [sqrt2C_sq]
    | true =>
      rw [show setAt d t true = d from by rw [← hdt]; exact setAt_eq_self d t]
      simp only [if_true, neg_smul, one_smul]
      funext b
      simp only [Pi.add_apply, Pi.smul_apply, Pi.neg_apply, smul_eq_mul]
      field_simp
      ring_nf
      simp [sqrt2C_sq]
  · rw [if_neg hC, if_neg hC]
    rw [applyOp_H_basis, applyOp_H_basis]
    simp only [setAt_setAt, setAt_apply_same, if_true, if_false, Bool.false_eq_true,
      one_smul, Bool.and_eq_true]
    rw [if_neg (show ¬(cs.all d = true ∧ d t = true) from fun hc => hC hc.1)]
    cases hdt : d t with
    | false =>
      rw [show setAt d t false = d from by rw [← hdt]; exact setAt_eq_self d t]
      simp only [Bool.false_eq_true, if_false, one_smul]
      funext b
      simp only [Pi.add_apply, Pi.smul_apply, smul_eq_mul]
      field_simp
      ring_nf
      simp [sqrt2C_sq]
    | true =>
      rw [show setAt d t true = d from by rw [← hdt]; exact setAt_eq_self d t]
      simp only [if_true, neg_smul, one_smul]
      funext b
      simp only [Pi.add_apply, Pi.smul_apply, Pi.neg_apply, smul_eq_mul]
      field_simp
      ring_nf
      simp [sqrt2C_sq]

theorem mem_controlQubits (s : String) (i : Fin s.length) :
    i ∈ Grover.controlQubits s ↔ i.1 < s.length - 1 := by
  simp [Grover.controlQubits, List.mem_filter]

theorem t_not_mem_controlQubits (s : String) (h : 0 < s.length) :
    (⟨s.length - 1, by omega⟩ : Fin s.length) ∉ Grover.controlQubits s := by
  rw [mem_controlQubits]
  show ¬(s.length - 1 < s.length - 1)
  omega

theorem controls_and_target_iff (s : String) (h : 0 < s.length) (y : BV s.length) :
    ((Grover.controlQubits s).all y && y ⟨s.length - 1, by omega⟩) = true ↔
      y = fun _ => true := by
  constructor
  · intro hy
    rw [Bool.and_eq_true, List.all_eq_true] at hy
    funext i
    by_cases hi : i.1 < s.length - 1
    · exact hy.1 i ((mem_controlQubits s i).mpr hi)
    · have hieq : i = ⟨s.length - 1, by omega⟩ := by
        apply Fin.ext
        have := i.2
        simp only []
        omega
      rw [hieq]
      exact hy.2
  · intro hy
    subst hy
    rw [Bool.and_eq_true, List.all_eq_true]
    exact ⟨fun i _ => rfl, rfl⟩

theorem marked_eq_not_mask (s : String) (hbin : ∀ c ∈ s.data, c = '0' ∨ c = '1')
    (i : Fin s.length) : Grover.markedBit s i = !(Grover.maskBit s i) := by
  have hmem : s.data.reverse.get ⟨i.1, by rw [List.length_reverse]; exact i.2⟩ ∈ s.data := by
    rw [← List.mem_reverse]
    exact List.get_mem _ _ _
  rcases hbin _ hmem with h0 | h1
  · simp only [Grover.markedBit, Grover.maskBit, h0]
    rfl
  · simp only [Grover.markedBit, Grover.maskBit, h1]
    rfl

theorem y_eq_allOnes_iff (s : String) (hbin : ∀ c ∈ s.data, c = '0' ∨ c = '1')
    (x : BV s.length) :
    ((fun i => xor (x i) (Grover.maskBit s i)) = fun _ => true) ↔
      x = Grover.markedState s := by
  have key : ∀ i, (xor (x i) (Grover.maskBit s i) = true) ↔
      (x i = Grover.markedState s i) := by
    intro i
    rw [show Grover.markedState s i = Grover.markedBit s i from rfl,
      marked_eq_not_mask s hbin i]
    cases x i <;> cases Grover.maskBit s i <;> simp
  constructor
  · intro hy
    funext i
    exact (key i).mp (congrFun hy i)
  · intro hx
    funext i
    exact (key i).mpr (congrFun hx i)

theorem xor_mask_twice (s : String) (x : BV s.length) :
    (fun i => xor ((fun j => xor (x j) (Grover.maskBit s j)) i) (Grover.maskBit s i))
      = x := by
  funext i
  simp [Bool.xor_assoc]

/-- C4: the Grover phase oracle built by create_oracle acts on every basis
state as a pure phase flip: it negates the amplitude of the marked state and
leaves every other basis state unchanged. -/
theorem grover_oracle_phase_flip (s : String) (h : 0 < s.length)
    (hbin : ∀ c ∈ s.data, c = '0' ∨ c = '1') (x : BV s.length) :
    applyCircuit (Grover.create_oracle s h) (basisState x) =
      if x = Grover.markedState s then (-1 : ℂ) • basisState x else basisState x := by
  rw [Grover.create_oracle, applyCircuit_append, applyCircuit_append,
    applyCircuit_append, xLayer_basis,
    H_MCX_H_basis _ _ (t_not_mem_controlQubits s h)]
  by_cases hx : x = Grover.markedState s
  · rw [if_pos ((controls_and_target_iff s h _).mpr ((y_eq_allOnes_iff s hbin x).mpr hx)),
      applyCircuit_smul, xLayer_basis, xor_mask_twice, if_pos hx]
    rfl
  · rw [if_neg (fun hc => hx ((y_eq_allOnes_iff s hbin x).mp
        ((controls_and_target_iff s h _).mp hc))),
      xLayer_basis, xor_mask_twice, if_neg hx]
    rfl

/-- Witness for C4: the oracle for the marked string "1101" used by the
repository flips exactly the marked basis state. -/
theorem grover_oracle_phase_flip_witness :
    (0 < "1101".length) ∧ (∀ c ∈ "1101".data, c = '0' ∨ c = '1') ∧
      applyCircuit (Grover.create_oracle "1101" (by decide))
          (basisState (Grover.markedState "1101")) =
        (-1 : ℂ) • basisState (Grover.markedState "1101") := by
  refine ⟨by decide, by decide, ?_⟩
  have hmain := grover_oracle_phase_flip "1101" (by decide) (by decide)
    (Grover.markedState "1101")
  rwa [if_pos rfl] at hmain

end

end QuantumSpec
